import Mathlib

/-!
Verification of `chip_voice_commander.py` (speech/cloud-client): a shallow
embedding of the transcript-interpretation loop (`listen_print_loop`), the
resumable microphone chunk generator (`ResumableMicrophoneStream.generator`)
and the supervising loop in `main`, together with proofs of the specified
properties.

Timestamps (Python floats from `time.time()`) and stability scores are
modelled as rationals; millisecond clocks (`get_current_time()`) as integers;
audio chunks as an opaque type parameter.
-/

namespace ChipVoice

/-! ## Whole-word case-insensitive matching

The source matches phrases with `re.search(r'\b(PHRASE)\b', transcript, re.I)`.
All phrases used start and end with word characters (`[A-Za-z0-9_]`), so a
leading or trailing `\b` matches exactly when the adjacent transcript
character (if any) is not a word character.  Case-insensitivity is ASCII
lowercase folding.
-/

/-- Python regex word character `\w` (ASCII, no `re.U`): `[A-Za-z0-9_]`. -/
def isWordChar (c : Char) : Bool :=
  c.isAlpha || c.isDigit || c == '_'

/-- ASCII lowercase folding, as `re.I` applies to ASCII patterns. -/
def lowerAscii (c : Char) : Char := c.toLower

/-- Case-insensitive matching of pattern `p` against the beginning of `s`. -/
def headMatchCI : List Char → List Char → Bool
  | [], _ => true
  | _ :: _, [] => false
  | a :: as, b :: bs => (lowerAscii a == lowerAscii b) && headMatchCI as bs

/-- The trailing `\b`: after the matched pattern, the string either ends or
continues with a non-word character. -/
def afterOk (p s : List Char) : Bool :=
  match s.drop p.length with
  | [] => true
  | c :: _ => !isWordChar c

/-- The leading `\b`: the match position is the start of the string or is
preceded by a non-word character. -/
def boundOk : Option Char → Bool
  | none => true
  | some c => !isWordChar c

/-- `re.search(r'\b(p)\b', s, re.I)` for a pattern `p` that starts and ends
with word characters: scan every position of `s`, carrying the previous
character for the leading boundary test. -/
def searchFrom (p : List Char) (prev : Option Char) : List Char → Bool
  | [] => boundOk prev && headMatchCI p [] && afterOk p []
  | c :: rest =>
    (boundOk prev && headMatchCI p (c :: rest) && afterOk p (c :: rest)) ||
      searchFrom p (some c) rest

/-- Whole-word, case-insensitive search of phrase `p` in transcript `s`. -/
def wwSearch (p s : String) : Bool :=
  searchFrom p.data none s.data

/-- `re.search(r'\b(exit|quit)\b', transcript, re.I)`: the alternation of two
word-character-only branches is the disjunction of their whole-word searches. -/
def quitSearch (s : String) : Bool :=
  wwSearch "exit" s || wwSearch "quit" s

/-! ## Static data: vocabulary and command payloads -/

/-- `STREAMING_LIMIT = 55000` (milliseconds). -/
def STREAMING_LIMIT : ℤ := 55000

/-- The `commands` phrase list, in source order. -/
def commands : List String :=
  ["go short", "go medium", "go long", "go slow", "go fast", "go run",
   "go manual", "go stop", "go auto", "stop", "halt"]

/-- A JSON value, enough to express the command payloads the program sends. -/
inductive JsonVal where
  | num (q : ℚ)
  | obj (fields : List (String × JsonVal))

/-- `command_dicts`, in source order, parallel to `commands`. -/
def command_dicts : List JsonVal :=
  [.obj [("move", .obj [("speed", .num 1), ("duration", .num 0), ("distance", .num (1/2))])],
   .obj [("move", .obj [("speed", .num 1), ("duration", .num 0), ("distance", .num (3/2))])],
   .obj [("move", .obj [("speed", .num 1), ("duration", .num 0), ("distance", .num (5/2))])],
   .obj [("move", .obj [("speed", .num (3/5)), ("duration", .num 7200), ("distance", .num 0)])],
   .obj [("move", .obj [("speed", .num 1), ("duration", .num 7200), ("distance", .num 0)])],
   .obj [("move", .obj [("speed", .num (11/10)), ("duration", .num 7200), ("distance", .num 0)])],
   .obj [("terminate", .num 1)],
   .obj [("move", .obj [("speed", .num 0), ("duration", .num 0), ("distance", .num 0)])],
   .obj [("move", .obj [("speed", .num 0), ("duration", .num 0), ("distance", .num 0)])],
   .obj [("move", .obj [("speed", .num 0), ("duration", .num 0), ("distance", .num 0)])],
   .obj [("move", .obj [("speed", .num 0), ("duration", .num 0), ("distance", .num 0)])]]

/-- `voice_msg = {}; voice_msg['handheld'] = command_dicts[command_idx]`. -/
def voiceMsg (idx : ℕ) : JsonVal :=
  .obj [("handheld", command_dicts.getD idx (.obj []))]

/-! ## The vocabulary scan

`command_idx = -1; for i in range(len(commands)): if re.search(..): command_idx = i`
— the candidate is overwritten on every hit and the loop never breaks, so the
last (largest-index) match wins.
-/

/-- The body of the scan loop: walk the remaining entries, carrying the index
of the next entry and the current candidate. -/
def scanGo (t : String) : ℕ → List String → ℤ → ℤ
  | _, [], acc => acc
  | i, c :: cs, acc => scanGo t (i + 1) cs (if wwSearch c t then (i : ℤ) else acc)

/-- `command_idx` after the scan loop over the whole vocabulary. -/
def scanCommands (t : String) : ℤ := scanGo t 0 commands (-1)

/-! ## Transcript events

`listen_print_loop` consults only the first result and its top alternative;
the transcript string is augmented with the stability score and a `Final`
marker before being displayed and matched.
-/

/-- One recognition alternative (only the transcript is consulted). -/
structure SpeechAlt where
  transcript : String

/-- One streaming result: top alternatives, stability, `is_final`. -/
structure SpeechResult where
  alternatives : List SpeechAlt
  stability : ℚ
  is_final : Bool

/-- One streaming response: its list of results. -/
structure StreamingResponse where
  results : List SpeechResult

/-- `'%.2f' % q` for a nonnegative rational: two decimal places. -/
def format2f (q : ℚ) : String :=
  let n : ℕ := (round (q * 100)).toNat
  toString (n / 100) ++ "." ++ (if n % 100 < 10 then "0" else "") ++ toString (n % 100)

/-- The transcript actually displayed and matched: the top alternative's text
with `' %.2f' % stability` appended when `stability > 0` and `' Final'`
appended when `is_final`. -/
def augmentTranscript (res : SpeechResult) : String :=
  let t := (res.alternatives.headD ⟨""⟩).transcript
  let t := if res.stability > 0 then t ++ (" " ++ format2f res.stability) else t
  if res.is_final then t ++ " Final" else t

/-- `accept = (result.stability > 0.0) or result.is_final`. -/
def acceptOf (res : SpeechResult) : Bool :=
  decide (res.stability > 0) || res.is_final

/-! ## The interpretation step -/

/-- The repeat-suppression state: globals `last_command_ts` (seconds) and
`last_command_num`. -/
structure InterpState where
  last_command_ts : ℚ
  last_command_num : ℤ

/-- The globals at module load: `last_command_ts = 0`, `last_command_num = -1`. -/
def initState : InterpState := ⟨0, -1⟩

/-- What one response produced: dropped by the filter, displayed interim text,
the close signal (quit word), an accepted transcript with no vocabulary match,
a repeat-suppressed match, or an emitted command message. -/
inductive StepResult where
  | filtered
  | displayOnly (shown : String)
  | closed
  | noMatch
  | suppressed (idx : ℤ)
  | emitted (idx : ℤ) (msg : JsonVal)

/-- The body of `listen_print_loop` for one response, where `t` is the value
`time.time()` would return at the command timestamp read (`curr_command_ts`).
Responses with no results or an empty top-alternatives list are dropped by the
generator filter at the top of the function. -/
def processResponse (st : InterpState) (resp : StreamingResponse) (t : ℚ) :
    StepResult × InterpState :=
  match resp.results with
  | [] => (.filtered, st)
  | result :: _ =>
    match result.alternatives with
    | [] => (.filtered, st)
    | _ :: _ =>
      let transcript := augmentTranscript result
      if !acceptOf result then
        (.displayOnly transcript, st)
      else if quitSearch transcript then
        (.closed, st)
      else
        let idx := scanCommands transcript
        if idx > -1 then
          if st.last_command_num = idx ∧ idx < 6 ∧ t - st.last_command_ts < 2 then
            (.suppressed idx, st)
          else
            (.emitted idx (voiceMsg idx.toNat), ⟨t, idx⟩)
        else (.noMatch, st)

/-- Whether a step produced the close signal (the quit path that sets
`stream.closed` and breaks out of the loop). -/
def isCloseSignal : StepResult → Bool
  | .closed => true
  | _ => false

/-- The whole `listen_print_loop` over a finite response stream: process each
response in order; on the quit word, set `stream.closed` and break.  Returns
the step results, the final suppression state, and whether the stream was
closed. -/
def runLoop (st : InterpState) :
    List (StreamingResponse × ℚ) → List StepResult × InterpState × Bool
  | [] => ([], st, false)
  | (r, t) :: rest =>
    let p := processResponse st r t
    if isCloseSignal p.1 then ([.closed], p.2, true)
    else (p.1 :: (runLoop p.2 rest).1, (runLoop p.2 rest).2)

/-- The command messages sent on the publish socket by a run. -/
def emittedMsgs (rs : List StepResult) : List JsonVal :=
  rs.filterMap fun r => match r with | .emitted _ m => some m | _ => none

/-- The number of close signals a run produced. -/
def closeCount (rs : List StepResult) : ℕ :=
  rs.countP fun r => match r with | .closed => true | _ => false

/-- The interim display writes a run produced. -/
def displayedLines (rs : List StepResult) : List String :=
  rs.filterMap fun r => match r with | .displayOnly s => some s | _ => none

/-! ## The resumable microphone chunk generator

`ResumableMicrophoneStream.generator`: before each blocking queue read it
checks `closed` and the streaming limit; on the limit it resets `start_time`
and breaks.  After a blocking read it drains whatever is already buffered and
yields the batch.  A `None` in the queue is the end sentinel.  The buffered
queue is modelled as the list of items a run will observe, a chunk being
`some c` and the sentinel `none`; each loop iteration is driven by a schedule
entry `(t, k)`: the millisecond clock at the check and the number of items
available to the non-blocking drain before `queue.Empty` is raised.
-/

/-- The state of one `ResumableMicrophoneStream`, chunks drawn from `α`. -/
structure GenState (α : Type) where
  closed : Bool
  start_time : ℤ
  buff : List (Option α)

/-- The inner non-blocking drain: read up to `k` available items, stopping at
`queue.Empty` (the queue list exhausted before `k`) or returning at the `none`
sentinel (third component true; the batch collected so far is discarded by the
caller, mirroring the `return` before any `yield`). -/
def drainQueue {α : Type} : ℕ → List (Option α) → List α × List (Option α) × Bool
  | 0, q => ([], q, false)
  | _ + 1, [] => ([], [], false)
  | _ + 1, none :: rest => ([], rest, true)
  | k + 1, some c :: rest =>
    let (ds, q, s) := drainQueue k rest
    (c :: ds, q, s)

/-- One call to `generator()`, run over a schedule of loop iterations.
Returns the yielded batches and the stream state when the generator ends. -/
def genRun {α : Type} : List (ℤ × ℕ) → GenState α → List (List α) × GenState α
  | [], st => ([], st)
  | (t, k) :: sched, st =>
    if st.closed then ([], st)
    else if t - st.start_time > STREAMING_LIMIT then
      ([], { st with start_time := t })
    else
      match st.buff with
      | [] => ([], st)
      | none :: rest => ([], { st with buff := rest })
      | some c :: rest =>
        let (ds, q, sent) := drainQueue k rest
        if sent then ([], { st with buff := q })
        else
          let (ys, st1) := genRun sched { st with buff := q }
          ((c :: ds) :: ys, st1)

/-! ## The supervising loop in `main`

`main` runs `while True:` forever; each iteration constructs a fresh
`ResumableMicrophoneStream`, enters it (`closed := False`), and repeatedly
calls `listen_print_loop` while the stream is open.  Nothing after the quit
path breaks out of the outer loop.
-/

/-- The inner `while not stream.closed:` loop: run `listen_print_loop` on the
response stream of each successive recognize call while the stream stays
open. -/
def innerLoop (ist : InterpState) :
    Bool → List (List (StreamingResponse × ℚ)) → List StepResult × InterpState
  | _, [] => ([], ist)
  | closed, seg :: segs =>
    if closed then ([], ist)
    else
      let (os, ist1, c) := runLoop ist seg
      let (os2, ist2) := innerLoop ist1 c segs
      (os ++ os2, ist2)

/-- The outer `while True:` loop of `main`, run for `fuel` iterations:
iteration `n` unconditionally opens a new microphone stream session and feeds
`env n` to the inner loop.  Returns how many sessions were opened and the
final suppression state. -/
def mainLoop (env : ℕ → List (List (StreamingResponse × ℚ))) :
    InterpState → ℕ → ℕ → ℕ × InterpState
  | ist, _, 0 => (0, ist)
  | ist, n, fuel + 1 =>
    let (_, ist1) := innerLoop ist false (env n)
    let (k, ist2) := mainLoop env ist1 (n + 1) fuel
    (k + 1, ist2)

/-! ## Lemmas about whole-word matching -/

/-- A successful head match means the pattern is no longer than the string. -/
lemma headMatchCI_length {p s : List Char} (h : headMatchCI p s = true) :
    p.length ≤ s.length := by
  induction p generalizing s with
  | nil => simp
  | cons a as ih =>
    cases s with
    | nil => simp [headMatchCI] at h
    | cons b bs =>
      simp only [headMatchCI, Bool.and_eq_true] at h
      simpa using ih h.2

/-- An empty pattern head-matches everything. -/
lemma headMatchCI_nil_left (s : List Char) : headMatchCI [] s = true := rfl

/-- A nonempty pattern never head-matches the empty string. -/
lemma headMatchCI_nil_right {p : List Char} (h : headMatchCI p [] = true) : p = [] := by
  cases p with
  | nil => rfl
  | cons a as => simp [headMatchCI] at h

/-- Head matches survive appending to the string. -/
lemma headMatchCI_append {p s : List Char} (ext : List Char)
    (h : headMatchCI p s = true) : headMatchCI p (s ++ ext) = true := by
  induction p generalizing s with
  | nil => rfl
  | cons a as ih =>
    cases s with
    | nil => simp [headMatchCI] at h
    | cons b bs =>
      simp only [headMatchCI, Bool.and_eq_true] at h
      simp only [List.cons_append, headMatchCI, Bool.and_eq_true]
      exact ⟨h.1, ih h.2⟩

/-- An extension of the transcript is harmless to matching when it is empty or
begins with a non-word character. -/
def extOk : List Char → Bool
  | [] => true
  | c :: _ => !isWordChar c

/-- The trailing word boundary survives a harmless extension. -/
lemma afterOk_append {p s : List Char} (ext : List Char)
    (hm : headMatchCI p s = true) (ha : afterOk p s = true)
    (hext : extOk ext = true) : afterOk p (s ++ ext) = true := by
  have hlen := headMatchCI_length hm
  unfold afterOk at ha ⊢
  rw [List.drop_append_of_le_length hlen]
  cases hd : s.drop p.length with
  | nil =>
    cases ext with
    | nil => rfl
    | cons c cs => simpa [extOk] using hext
  | cons c cs => rw [hd] at ha; simpa using ha

/-- A whole-word match survives a harmless extension of the string. -/
lemma searchFrom_append (p ext : List Char) (hext : extOk ext = true) :
    ∀ (prev : Option Char) (s : List Char), searchFrom p prev s = true →
      searchFrom p prev (s ++ ext) = true := by
  intro prev s
  induction s generalizing prev with
  | nil =>
    intro h
    simp only [searchFrom, Bool.and_eq_true] at h
    obtain ⟨⟨hb, hm⟩, _⟩ := h
    have hp := headMatchCI_nil_right hm
    subst hp
    cases ext with
    | nil => simp [searchFrom, hb, headMatchCI, afterOk]
    | cons c cs =>
      simp only [List.nil_append, searchFrom, Bool.or_eq_true, Bool.and_eq_true]
      refine Or.inl ⟨⟨hb, rfl⟩, ?_⟩
      simpa [afterOk, extOk] using hext
  | cons b bs ih =>
    intro h
    simp only [searchFrom, Bool.or_eq_true, Bool.and_eq_true] at h
    simp only [List.cons_append, searchFrom, Bool.or_eq_true, Bool.and_eq_true]
    rcases h with ⟨⟨hb, hm⟩, ha⟩ | hrec
    · exact Or.inl ⟨⟨hb, headMatchCI_append ext hm⟩, afterOk_append ext hm ha hext⟩
    · exact Or.inr (ih (some b) hrec)

/-- A whole-word phrase match survives appending a harmless extension. -/
lemma wwSearch_append {p s : String} (ext : String) (hext : extOk ext.data = true)
    (h : wwSearch p s = true) : wwSearch p (s ++ ext) = true := by
  unfold wwSearch at h ⊢
  rw [String.data_append]
  exact searchFrom_append p.data ext.data hext none s.data h

/-- The quit-word search survives appending a harmless extension. -/
lemma quitSearch_append {s : String} (ext : String) (hext : extOk ext.data = true)
    (h : quitSearch s = true) : quitSearch (s ++ ext) = true := by
  unfold quitSearch at h ⊢
  simp only [Bool.or_eq_true] at h ⊢
  rcases h with h1 | h1
  · exact Or.inl (wwSearch_append ext hext h1)
  · exact Or.inr (wwSearch_append ext hext h1)

/-- The suffixes appended for display (`' %.2f'`, `' Final'`) begin with a
space, so a quit word in the raw transcript is still found in the augmented
transcript that the source actually searches. -/
lemma quitSearch_augment (res : SpeechResult)
    (h : quitSearch (res.alternatives.headD ⟨""⟩).transcript = true) :
    quitSearch (augmentTranscript res) = true := by
  have hsp : extOk (" " ++ format2f res.stability).data = true := by
    rw [String.data_append]; rfl
  have hfin : extOk (" Final").data = true := rfl
  have hbase : quitSearch (if res.stability > 0
      then (res.alternatives.headD ⟨""⟩).transcript ++ (" " ++ format2f res.stability)
      else (res.alternatives.headD ⟨""⟩).transcript) = true := by
    by_cases h1 : res.stability > 0
    · rw [if_pos h1]; exact quitSearch_append _ hsp h
    · rw [if_neg h1]; exact h
  simp only [augmentTranscript]
  cases hf : res.is_final
  · simpa using hbase
  · rw [if_pos rfl]
    exact quitSearch_append _ hfin hbase

/-! ## Lemmas about the interpretation step -/

/-- A response with an empty results list is dropped by the filter. -/
lemma processResponse_no_results (st : InterpState) (t : ℚ) :
    processResponse st ⟨[]⟩ t = (.filtered, st) := rfl

/-- A response whose first result has no alternatives is dropped by the
filter. -/
lemma processResponse_no_alternatives (st : InterpState) (t : ℚ)
    (res : SpeechResult) (rs : List SpeechResult) (h : res.alternatives = []) :
    processResponse st ⟨res :: rs⟩ t = (.filtered, st) := by
  obtain ⟨alts, stab, fin⟩ := res
  cases alts with
  | nil => rfl
  | cons a as => simp at h

/-- A non-filtered, non-accepted response is display-only. -/
lemma processResponse_notAccept (st : InterpState) (t : ℚ) (res : SpeechResult)
    (rs : List SpeechResult) (halts : res.alternatives ≠ [])
    (h : acceptOf res = false) :
    processResponse st ⟨res :: rs⟩ t = (.displayOnly (augmentTranscript res), st) := by
  obtain ⟨alts, stab, fin⟩ := res
  cases alts with
  | nil => simp at halts
  | cons a as => simp [processResponse, h]

/-- An accepted response whose searched transcript contains the quit word
closes the stream and emits nothing else. -/
lemma processResponse_quit (st : InterpState) (t : ℚ) (res : SpeechResult)
    (rs : List SpeechResult) (halts : res.alternatives ≠ [])
    (hacc : acceptOf res = true)
    (hq : quitSearch (augmentTranscript res) = true) :
    processResponse st ⟨res :: rs⟩ t = (.closed, st) := by
  obtain ⟨alts, stab, fin⟩ := res
  cases alts with
  | nil => simp at halts
  | cons a as => simp [processResponse, hacc, hq]

/-- An accepted, non-quit response with no vocabulary match emits nothing and
changes nothing. -/
lemma processResponse_noMatch (st : InterpState) (t : ℚ) (res : SpeechResult)
    (rs : List SpeechResult) (halts : res.alternatives ≠ [])
    (hacc : acceptOf res = true)
    (hq : quitSearch (augmentTranscript res) = false)
    (hscan : scanCommands (augmentTranscript res) = -1) :
    processResponse st ⟨res :: rs⟩ t = (.noMatch, st) := by
  obtain ⟨alts, stab, fin⟩ := res
  cases alts with
  | nil => simp at halts
  | cons a as => simp [processResponse, hacc, hq, hscan]

/-- An accepted, non-quit response matching vocabulary index `i` is either
repeat-suppressed or emitted with the state updated, by the source's
three-way condition. -/
lemma processResponse_match (st : InterpState) (t : ℚ) (res : SpeechResult)
    (rs : List SpeechResult) (i : ℤ) (halts : res.alternatives ≠ [])
    (hacc : acceptOf res = true)
    (hq : quitSearch (augmentTranscript res) = false)
    (hscan : scanCommands (augmentTranscript res) = i) (hpos : -1 < i) :
    processResponse st ⟨res :: rs⟩ t =
      if st.last_command_num = i ∧ i < 6 ∧ t - st.last_command_ts < 2
      then (.suppressed i, st)
      else (.emitted i (voiceMsg i.toNat), ⟨t, i⟩) := by
  obtain ⟨alts, stab, fin⟩ := res
  cases alts with
  | nil => simp at halts
  | cons a as => simp [processResponse, hacc, hq, hscan, hpos]

/-- Unfolding `runLoop` at a response that does not close the stream. -/
lemma runLoop_cons_of_ne_closed (st st1 : InterpState) (resp : StreamingResponse)
    (t : ℚ) (rest : List (StreamingResponse × ℚ)) (res : StepResult)
    (h : processResponse st resp t = (res, st1)) (hne : isCloseSignal res = false) :
    runLoop st ((resp, t) :: rest) =
      (res :: (runLoop st1 rest).1, (runLoop st1 rest).2) := by
  simp only [runLoop, h, hne, Bool.false_eq_true, if_false, ite_false]

/-- Unfolding `runLoop` at a response that closes the stream: the close signal
is recorded and the remaining responses are not processed. -/
lemma runLoop_cons_closed (st st1 : InterpState) (resp : StreamingResponse)
    (t : ℚ) (rest : List (StreamingResponse × ℚ))
    (h : processResponse st resp t = (.closed, st1)) :
    runLoop st ((resp, t) :: rest) = ([.closed], st1, true) := by
  simp only [runLoop, h, isCloseSignal, if_true, ite_true]

/-! ## Lemmas about the vocabulary scan -/

/-- If no remaining entry matches, the scan keeps its candidate. -/
lemma scanGo_all_false (t : String) :
    ∀ (l : List String) (i : ℕ) (acc : ℤ),
      (l.all fun c => !wwSearch c t) = true → scanGo t i l acc = acc := by
  intro l
  induction l with
  | nil => intro i acc _; rfl
  | cons c cs ih =>
    intro i acc h
    simp only [List.all_cons, Bool.and_eq_true, Bool.not_eq_true'] at h
    simp only [scanGo, h.1, if_neg]
    exact ih (i + 1) acc (by simpa using h.2)

/-- If entry `j` matches and no later entry does, the scan ends at `i + j`. -/
lemma scanGo_last (t : String) :
    ∀ (l : List String) (j : ℕ) (hj : j < l.length) (i : ℕ) (acc : ℤ),
      wwSearch (l.get ⟨j, hj⟩) t = true →
      ((l.drop (j + 1)).all fun c => !wwSearch c t) = true →
      scanGo t i l acc = (i : ℤ) + (j : ℤ) := by
  intro l
  induction l with
  | nil => intro j hj; simp at hj
  | cons c cs ih =>
    intro j hj i acc hmatch hrest
    cases j with
    | zero =>
      simp only [List.get] at hmatch
      simp only [List.drop_succ_cons, List.drop_zero] at hrest
      simp only [scanGo, hmatch, if_pos]
      rw [scanGo_all_false t cs (i + 1) (i : ℤ) hrest]
      simp
    | succ j' =>
      simp only [List.get] at hmatch
      simp only [List.drop_succ_cons] at hrest
      have hj' : j' < cs.length := by simpa using hj
      simp only [scanGo]
      rw [ih j' hj' (i + 1) (if wwSearch c t then (i : ℤ) else acc) hmatch hrest]
      push_cast
      ring

/-- The acceptance filter in terms of the event's fields. -/
lemma acceptOf_iff (res : SpeechResult) :
    acceptOf res = true ↔ (res.is_final = true ∨ res.stability > 0) := by
  simp [acceptOf, Bool.or_eq_true, decide_eq_true_eq, or_comm]

/-- The scan returns its initial candidate or a genuine (nonnegative) index. -/
lemma scanGo_cases (t : String) :
    ∀ (l : List String) (i : ℕ) (acc : ℤ),
      scanGo t i l acc = acc ∨ 0 ≤ scanGo t i l acc := by
  intro l
  induction l with
  | nil => intro i acc; exact Or.inl rfl
  | cons c cs ih =>
    intro i acc
    simp only [scanGo]
    rcases ih (i + 1) (if wwSearch c t then (i : ℤ) else acc) with heq | hge
    · rw [heq]
      by_cases hw : wwSearch c t = true
      · exact Or.inr (by simp [hw])
      · exact Or.inl (by simp [hw])
    · exact Or.inr hge

/-- The scan ends at `-1` or at a genuine vocabulary index. -/
lemma scanCommands_cases (t : String) :
    scanCommands t = -1 ∨ 0 ≤ scanCommands t :=
  scanGo_cases t commands 0 (-1)

/-- An accepted response is never display-only. -/
lemma processResponse_accept_ne_display (st : InterpState) (t : ℚ)
    (res : SpeechResult) (rs : List SpeechResult) (s : String)
    (hacc : acceptOf res = true) :
    (processResponse st ⟨res :: rs⟩ t).1 ≠ .displayOnly s := by
  intro hcontra
  obtain ⟨alts, stab, fin⟩ := res
  cases alts with
  | nil => simp [processResponse] at hcontra
  | cons a as =>
    simp only [processResponse, hacc, Bool.not_true] at hcontra
    split_ifs at hcontra <;> simp_all

/-- Whatever branch is taken, a suppressed step leaves the suppression state
untouched. -/
lemma processResponse_suppressed_state (st : InterpState)
    (resp : StreamingResponse) (t : ℚ) (i : ℤ)
    (h : (processResponse st resp t).1 = .suppressed i) :
    (processResponse st resp t).2 = st := by
  obtain ⟨results⟩ := resp
  cases results with
  | nil => rfl
  | cons res rs =>
    obtain ⟨alts, stab, fin⟩ := res
    cases alts with
    | nil => rfl
    | cons a as =>
      simp only [processResponse] at h ⊢
      split_ifs at h ⊢ <;> simp_all

/-! ## Lemmas about the chunk generator -/

/-- Draining a sentinel-free queue takes some front chunks, leaves the rest,
and never hits the end marker. -/
lemma drainQueue_map_some {α : Type} :
    ∀ (k : ℕ) (l : List α), ∃ tk r,
      drainQueue k (l.map some) = (tk, r.map some, false) ∧ tk ++ r = l := by
  intro k
  induction k with
  | zero => intro l; exact ⟨[], l, rfl, rfl⟩
  | succ k ih =>
    intro l
    cases l with
    | nil => exact ⟨[], [], rfl, rfl⟩
    | cons c cs =>
      obtain ⟨tk, r, he, hc⟩ := ih cs
      refine ⟨c :: tk, r, ?_, by simp [hc]⟩
      simp only [List.map_cons, drainQueue, he]

/-- A generator run on a sentinel-free queue consumes a prefix of the queued
chunks in order: the yielded batches flatten to exactly the chunks removed,
and the remainder stays queued, still in order and sentinel-free. -/
lemma genRun_map_some {α : Type} :
    ∀ (sched : List (ℤ × ℕ)) (st : GenState α) (l : List α),
      st.buff = l.map some →
      ∃ rem, (genRun sched st).2.buff = rem.map some ∧
        (genRun sched st).1.flatten ++ rem = l := by
  intro sched
  induction sched with
  | nil => intro st l h; exact ⟨l, h, by simp [genRun]⟩
  | cons tkk sched ih =>
    intro st l h
    obtain ⟨t, k⟩ := tkk
    simp only [genRun]
    by_cases hcl : st.closed = true
    · rw [if_pos hcl]
      exact ⟨l, h, by simp⟩
    · rw [if_neg hcl]
      by_cases hlim : t - st.start_time > STREAMING_LIMIT
      · rw [if_pos hlim]
        exact ⟨l, h, by simp⟩
      · rw [if_neg hlim]
        rw [h]
        cases l with
        | nil => exact ⟨[], by simp [h], by simp⟩
        | cons c cs =>
          obtain ⟨tk2, r, hdq, hcat⟩ := drainQueue_map_some k cs
          simp only [List.map_cons, hdq]
          obtain ⟨rem, hbuff, hflat⟩ :=
            ih { st with buff := r.map some } r rfl
          refine ⟨rem, ?_, ?_⟩
          · simpa using hbuff
          · simp only [Bool.false_eq_true, if_false, ite_false, List.flatten_cons]
            rw [List.append_assoc, hflat, ← hcat]
            simp

/-- Every iteration of the supervising `while True:` loop opens a new
session: the number of sessions opened equals the number of loop iterations,
whatever the responses were — nothing makes the loop stop. -/
lemma mainLoop_count (env : ℕ → List (List (StreamingResponse × ℚ))) :
    ∀ (fuel : ℕ) (ist : InterpState) (n : ℕ), (mainLoop env ist n fuel).1 = fuel := by
  intro fuel
  induction fuel with
  | zero => intro ist n; rfl
  | succ fuel ih =>
    intro ist n
    simp only [mainLoop]
    rw [ih]

/-! ## The claims -/

/-- C1: for an accepted, non-quit response matching vocabulary index `i` at
time `t`, emission is suppressed if and only if `i` equals the stored last
command index, `i < 6`, and `t` is within 2 seconds of the stored timestamp;
when that condition fails — in particular whenever `i ≥ 6` (the
stop/terminate class) — the command is emitted and the state updated. -/
theorem repeat_suppression_rule (st : InterpState) (t : ℚ) (res : SpeechResult)
    (rs : List SpeechResult) (i : ℤ)
    (halts : res.alternatives ≠ []) (hacc : acceptOf res = true)
    (hq : quitSearch (augmentTranscript res) = false)
    (hscan : scanCommands (augmentTranscript res) = i) (hpos : -1 < i) :
    ((processResponse st ⟨res :: rs⟩ t).1 = .suppressed i ↔
      (st.last_command_num = i ∧ i < 6 ∧ t - st.last_command_ts < 2)) ∧
    (¬(st.last_command_num = i ∧ i < 6 ∧ t - st.last_command_ts < 2) →
      processResponse st ⟨res :: rs⟩ t = (.emitted i (voiceMsg i.toNat), ⟨t, i⟩)) ∧
    (6 ≤ i → processResponse st ⟨res :: rs⟩ t =
      (.emitted i (voiceMsg i.toNat), ⟨t, i⟩)) := by
  rw [processResponse_match st t res rs i halts hacc hq hscan hpos]
  by_cases hcond : st.last_command_num = i ∧ i < 6 ∧ t - st.last_command_ts < 2
  · rw [if_pos hcond]
    refine ⟨iff_of_true rfl hcond, fun hn => absurd hcond hn, fun h6 => ?_⟩
    exact absurd hcond (by rintro ⟨-, hlt, -⟩; omega)
  · rw [if_neg hcond]
    exact ⟨iff_of_false (by simp) hcond, fun _ => rfl, fun _ => rfl⟩

/-- C1 witness: with the last command being index 4 ("go fast") 1 second ago,
a repeated final "go fast" is suppressed. -/
theorem repeat_suppression_rule_witness :
    (processResponse ⟨0, 4⟩ ⟨[⟨[⟨"go fast"⟩], 0, true⟩]⟩ 1).1 = .suppressed 4 :=
  (repeat_suppression_rule ⟨0, 4⟩ 1 ⟨[⟨"go fast"⟩], 0, true⟩ [] 4
      (by simp) (by decide) (by decide) (by decide) (by decide)).1.mpr
    ⟨rfl, by decide, by simp⟩

/-- C3: a sequence of transcript events that are all non-final with zero
stability produces zero command messages, and a (non-filtered) event is
display-only exactly when it is not accepted — acceptance happens exactly
when `is_final` is true or `stability > 0`. -/
theorem interim_events_emit_no_commands :
    (∀ (st : InterpState) (evs : List (StreamingResponse × ℚ)),
        (∀ e ∈ evs, ∀ res ∈ e.1.results, res.is_final = false ∧ res.stability = 0) →
        emittedMsgs (runLoop st evs).1 = []) ∧
    (∀ (st : InterpState) (t : ℚ) (alt : SpeechAlt) (alts : List SpeechAlt)
        (stab : ℚ) (fin : Bool) (rs : List SpeechResult),
        ((processResponse st ⟨⟨alt :: alts, stab, fin⟩ :: rs⟩ t).1 =
            .displayOnly (augmentTranscript ⟨alt :: alts, stab, fin⟩) ↔
          ¬(fin = true ∨ stab > 0))) := by
  constructor
  · intro st evs
    induction evs generalizing st with
    | nil => intro _; simp [runLoop, emittedMsgs]
    | cons e rest ih =>
      intro hh
      obtain ⟨resp, t⟩ := e
      have hrest := fun e he => hh e (List.mem_cons_of_mem _ he)
      have hresp := hh (resp, t) (List.mem_cons_self _ _)
      obtain ⟨results⟩ := resp
      cases results with
      | nil =>
        rw [runLoop_cons_of_ne_closed st st ⟨[]⟩ t rest .filtered
          (processResponse_no_results st t) rfl]
        simpa [emittedMsgs] using ih st hrest
      | cons res rs =>
        have hres := hresp res (by simp)
        cases halts : res.alternatives with
        | nil =>
          rw [runLoop_cons_of_ne_closed st st ⟨res :: rs⟩ t rest .filtered
            (processResponse_no_alternatives st t res rs halts) rfl]
          simpa [emittedMsgs] using ih st hrest
        | cons a as =>
          have hacc : acceptOf res = false := by
            simp [acceptOf, hres.1, hres.2]
          rw [runLoop_cons_of_ne_closed st st ⟨res :: rs⟩ t rest _
            (processResponse_notAccept st t res rs (by simp [halts]) hacc) rfl]
          simpa [emittedMsgs] using ih st hrest
  · intro st t alt alts stab fin rs
    constructor
    · intro hdisp hor
      have hacc : acceptOf ⟨alt :: alts, stab, fin⟩ = true := (acceptOf_iff _).mpr hor
      exact processResponse_accept_ne_display st t _ rs _ hacc hdisp
    · intro hnor
      have hacc : acceptOf ⟨alt :: alts, stab, fin⟩ = false := by
        cases h : acceptOf ⟨alt :: alts, stab, fin⟩ with
        | false => rfl
        | true => exact absurd ((acceptOf_iff _).mp h) hnor
      rw [processResponse_notAccept st t _ rs (by simp) hacc]

/-- C3 witness: a non-final, zero-stability "go fast" event emits nothing and
is display-only. -/
theorem interim_events_emit_no_commands_witness :
    emittedMsgs (runLoop initState [(⟨[⟨[⟨"go fast"⟩], 0, false⟩]⟩, 0)]).1 = [] ∧
    ((processResponse initState ⟨[⟨[⟨"go fast"⟩], 0, false⟩]⟩ 0).1 =
        .displayOnly (augmentTranscript ⟨[⟨"go fast"⟩], 0, false⟩) ↔
      ¬(false = true ∨ (0 : ℚ) > 0)) :=
  ⟨interim_events_emit_no_commands.1 initState _ (by decide),
   interim_events_emit_no_commands.2 initState 0 ⟨"go fast"⟩ [] 0 false []⟩

/-- C8: a response with an empty results list, or whose first result has an
empty alternatives list, is filtered out before interpretation: it yields no
display line, no command message, no close signal, no state change, and the
loop simply continues with the remaining responses. -/
theorem malformed_responses_filtered (st : InterpState) (t : ℚ)
    (results : List SpeechResult) (rest : List (StreamingResponse × ℚ))
    (h : results = [] ∨ ∃ res rs, results = res :: rs ∧ res.alternatives = []) :
    processResponse st ⟨results⟩ t = (.filtered, st) ∧
    runLoop st ((⟨results⟩, t) :: rest) =
      (.filtered :: (runLoop st rest).1, (runLoop st rest).2) ∧
    (∀ os : List StepResult, emittedMsgs (.filtered :: os) = emittedMsgs os) ∧
    (∀ os : List StepResult, displayedLines (.filtered :: os) = displayedLines os) ∧
    (∀ os : List StepResult, closeCount (.filtered :: os) = closeCount os) := by
  have hp : processResponse st ⟨results⟩ t = (.filtered, st) := by
    rcases h with rfl | ⟨res, rs, rfl, halts⟩
    · rfl
    · exact processResponse_no_alternatives st t res rs halts
  refine ⟨hp, runLoop_cons_of_ne_closed st st _ t rest _ hp rfl, ?_, ?_, ?_⟩ <;>
    intro os <;> simp [emittedMsgs, displayedLines, closeCount]

/-- C8 witness: a response whose only result has no alternatives is filtered
out and invisible to every output. -/
theorem malformed_responses_filtered_witness :
    processResponse initState ⟨[⟨[], 0, true⟩]⟩ 0 = (.filtered, initState) ∧
    runLoop initState [(⟨[⟨[], 0, true⟩]⟩, 0)] =
      (.filtered :: (runLoop initState []).1, (runLoop initState []).2) ∧
    (∀ os : List StepResult, emittedMsgs (.filtered :: os) = emittedMsgs os) ∧
    (∀ os : List StepResult, displayedLines (.filtered :: os) = displayedLines os) ∧
    (∀ os : List StepResult, closeCount (.filtered :: os) = closeCount os) :=
  malformed_responses_filtered initState 0 [⟨[], 0, true⟩] []
    (Or.inr ⟨⟨[], 0, true⟩, [], rfl, rfl⟩)

/-- C9: a repeat-suppressed step leaves the suppression state untouched — the
stored timestamp always refers to the last actual emission — and an identical
continuous-motion match arriving at least 2 seconds after that emission is
emitted again, updating the state. -/
theorem suppression_keeps_state (st : InterpState) (resp : StreamingResponse)
    (t : ℚ) (i : ℤ) :
    ((processResponse st resp t).1 = .suppressed i →
      (processResponse st resp t).2 = st) ∧
    (∀ (res : SpeechResult) (rs : List SpeechResult),
      resp = ⟨res :: rs⟩ → res.alternatives ≠ [] → acceptOf res = true →
      quitSearch (augmentTranscript res) = false →
      scanCommands (augmentTranscript res) = i → -1 < i →
      2 ≤ t - st.last_command_ts →
      processResponse st resp t = (.emitted i (voiceMsg i.toNat), ⟨t, i⟩)) := by
  constructor
  · exact processResponse_suppressed_state st resp t i
  · intro res rs hresp halts hacc hq hscan hpos hge
    subst hresp
    rw [processResponse_match st t res rs i halts hacc hq hscan hpos]
    rw [if_neg]
    rintro ⟨-, -, hlt⟩
    linarith

/-- C9 witness: a suppressed repeat of "go fast" leaves the state unchanged,
and the same match 5 seconds after the last emission is emitted again. -/
theorem suppression_keeps_state_witness :
    (processResponse ⟨0, 4⟩ ⟨[⟨[⟨"go fast"⟩], 0, true⟩]⟩ 1).2 = ⟨0, 4⟩ ∧
    processResponse ⟨0, 4⟩ ⟨[⟨[⟨"go fast"⟩], 0, true⟩]⟩ 5 =
      (.emitted 4 (voiceMsg (4 : ℤ).toNat), ⟨5, 4⟩) := by
  constructor
  · refine (suppression_keeps_state ⟨0, 4⟩ ⟨[⟨[⟨"go fast"⟩], 0, true⟩]⟩ 1 4).1 ?_
    rw [processResponse_match ⟨0, 4⟩ 1 ⟨[⟨"go fast"⟩], 0, true⟩ [] 4
      (by simp) (by decide) (by decide) (by decide) (by decide)]
    rw [if_pos ⟨rfl, by decide, by simp⟩]
  · exact (suppression_keeps_state ⟨0, 4⟩ ⟨[⟨[⟨"go fast"⟩], 0, true⟩]⟩ 5 4).2
      ⟨[⟨"go fast"⟩], 0, true⟩ [] rfl (by simp) (by decide) (by decide)
      (by decide) (by decide) (by norm_num)

/-- C4: the vocabulary scan never short-circuits — it visits every entry in
list order and overwrites the candidate on each whole-word hit — so the
candidate index is the largest (last in list order) matching index, and when
no entry matches the scan returns -1 and the accepted event emits no
command. -/
theorem last_match_wins (t : String) :
    (((commands.all fun c => !wwSearch c t) = true → scanCommands t = -1) ∧
     (∀ j (hj : j < commands.length),
        wwSearch (commands.get ⟨j, hj⟩) t = true →
        ((commands.drop (j + 1)).all fun c => !wwSearch c t) = true →
        scanCommands t = (j : ℤ))) ∧
    (∀ (st : InterpState) (tm : ℚ) (res : SpeechResult) (rs : List SpeechResult),
        res.alternatives ≠ [] → acceptOf res = true →
        quitSearch (augmentTranscript res) = false →
        augmentTranscript res = t →
        (commands.all fun c => !wwSearch c t) = true →
        processResponse st ⟨res :: rs⟩ tm = (.noMatch, st)) := by
  refine ⟨⟨?_, ?_⟩, ?_⟩
  · intro h
    exact scanGo_all_false t commands 0 (-1) h
  · intro j hj hm hrest
    have hs := scanGo_last t commands j hj 0 (-1) hm hrest
    simpa [scanCommands] using hs
  · intro st tm res rs halts hacc hq haug hall
    refine processResponse_noMatch st tm res rs halts hacc hq ?_
    rw [haug]
    exact scanGo_all_false t commands 0 (-1) hall

/-- C4 witness: "go slow then halt" matches entries 3 ("go slow") and
10 ("halt"); the scan returns the last match, 10; a transcript matching
nothing returns -1. -/
theorem last_match_wins_witness :
    scanCommands "go slow then halt Final" = 10 ∧
    scanCommands "hello world" = -1 :=
  ⟨(last_match_wins "go slow then halt Final").1.2 10 (by decide) (by decide)
      (by decide),
   (last_match_wins "hello world").1.1 (by decide)⟩

/-- C5: an accepted final transcript "go fast", not repeat-suppressed, emits
exactly one command message, and it serializes as
`{"handheld": {"move": {"speed": 1.0, "duration": 7200.0, "distance": 0.0}}}`. -/
theorem go_fast_scenario (st : InterpState) (t : ℚ)
    (hns : ¬(st.last_command_num = 4 ∧ t - st.last_command_ts < 2)) :
    runLoop st [(⟨[⟨[⟨"go fast"⟩], 0, true⟩]⟩, t)] =
      ([.emitted 4 (.obj [("handheld", .obj [("move", .obj
          [("speed", .num 1), ("duration", .num 7200), ("distance", .num 0)])])])],
        ⟨t, 4⟩, false) ∧
    emittedMsgs (runLoop st [(⟨[⟨[⟨"go fast"⟩], 0, true⟩]⟩, t)]).1 =
      [.obj [("handheld", .obj [("move", .obj
        [("speed", .num 1), ("duration", .num 7200), ("distance", .num 0)])])]] := by
  have hpr : processResponse st ⟨[⟨[⟨"go fast"⟩], 0, true⟩]⟩ t =
      (.emitted 4 (voiceMsg (4 : ℤ).toNat), ⟨t, 4⟩) := by
    rw [processResponse_match st t ⟨[⟨"go fast"⟩], 0, true⟩ [] 4
      (by simp) (by decide) (by decide) (by decide) (by decide)]
    rw [if_neg (by rintro ⟨h1, -, h3⟩; exact hns ⟨h1, h3⟩)]
  have hrl : runLoop st [(⟨[⟨[⟨"go fast"⟩], 0, true⟩]⟩, t)] =
      ([.emitted 4 (.obj [("handheld", .obj [("move", .obj
          [("speed", .num 1), ("duration", .num 7200), ("distance", .num 0)])])])],
        ⟨t, 4⟩, false) := by
    rw [runLoop_cons_of_ne_closed st ⟨t, 4⟩ _ t [] _ hpr rfl]
    rfl
  exact ⟨hrl, by rw [hrl]; rfl⟩

/-- C5 witness: from the initial state at time 0, a final "go fast" emits the
specified message. -/
theorem go_fast_scenario_witness :
    runLoop initState [(⟨[⟨[⟨"go fast"⟩], 0, true⟩]⟩, 0)] =
      ([.emitted 4 (.obj [("handheld", .obj [("move", .obj
          [("speed", .num 1), ("duration", .num 7200), ("distance", .num 0)])])])],
        ⟨0, 4⟩, false) ∧
    emittedMsgs (runLoop initState [(⟨[⟨[⟨"go fast"⟩], 0, true⟩]⟩, 0)]).1 =
      [.obj [("handheld", .obj [("move", .obj
        [("speed", .num 1), ("duration", .num 7200), ("distance", .num 0)])])]] :=
  go_fast_scenario initState 0 (by decide)

/-- C6: an accepted transcript containing the whole word "exit" or "quit"
(case-insensitive) closes the stream: the close signal is recorded, the
remaining responses of the session are not processed, no command message is
emitted for that transcript, and the suppression state is untouched. -/
theorem quit_closes_stream (st : InterpState) (t : ℚ) (alt : SpeechAlt)
    (alts : List SpeechAlt) (stab : ℚ) (fin : Bool) (rs : List SpeechResult)
    (rest : List (StreamingResponse × ℚ))
    (hacc : acceptOf ⟨alt :: alts, stab, fin⟩ = true)
    (hq : quitSearch alt.transcript = true) :
    processResponse st ⟨⟨alt :: alts, stab, fin⟩ :: rs⟩ t = (.closed, st) ∧
    runLoop st ((⟨⟨alt :: alts, stab, fin⟩ :: rs⟩, t) :: rest) =
      ([.closed], st, true) ∧
    emittedMsgs [StepResult.closed] = [] ∧ closeCount [StepResult.closed] = 1 := by
  have hq2 : quitSearch (augmentTranscript ⟨alt :: alts, stab, fin⟩) = true :=
    quitSearch_augment _ hq
  have hp := processResponse_quit st t _ rs (by simp) hacc hq2
  exact ⟨hp, runLoop_cons_closed st st _ t rest hp, rfl, rfl⟩

/-- C6 witness: a final "please exit now" closes the stream and emits no
command. -/
theorem quit_closes_stream_witness :
    processResponse initState ⟨[⟨[⟨"please exit now"⟩], 0, true⟩]⟩ 0 =
      (.closed, initState) ∧
    runLoop initState [(⟨[⟨[⟨"please exit now"⟩], 0, true⟩]⟩, 0)] =
      ([.closed], initState, true) ∧
    emittedMsgs [StepResult.closed] = [] ∧ closeCount [StepResult.closed] = 1 :=
  quit_closes_stream initState 0 ⟨"please exit now"⟩ [] 0 true [] []
    (by decide) (by decide)

/-- C10: when an accepted transcript contains both a quit word and one or
more vocabulary phrases, the quit check — performed first — wins: the stream
closes, no command message is emitted for that transcript, and the
suppression state is unchanged. -/
theorem quit_precedes_commands (st : InterpState) (t : ℚ) (alt : SpeechAlt)
    (alts : List SpeechAlt) (stab : ℚ) (fin : Bool) (rs : List SpeechResult)
    (rest : List (StreamingResponse × ℚ))
    (hacc : acceptOf ⟨alt :: alts, stab, fin⟩ = true)
    (hq : quitSearch alt.transcript = true)
    (hcmd : ∃ c ∈ commands, wwSearch c alt.transcript = true) :
    processResponse st ⟨⟨alt :: alts, stab, fin⟩ :: rs⟩ t = (.closed, st) ∧
    runLoop st ((⟨⟨alt :: alts, stab, fin⟩ :: rs⟩, t) :: rest) =
      ([.closed], st, true) ∧
    emittedMsgs [StepResult.closed] = [] := by
  have hq2 : quitSearch (augmentTranscript ⟨alt :: alts, stab, fin⟩) = true :=
    quitSearch_augment _ hq
  have hp := processResponse_quit st t _ rs (by simp) hacc hq2
  exact ⟨hp, runLoop_cons_closed st st _ t rest hp, rfl⟩

/-- C10 witness: a final "go fast quit" closes the stream — the matching
vocabulary phrase "go fast" notwithstanding — and emits no command. -/
theorem quit_precedes_commands_witness :
    processResponse ⟨0, -1⟩ ⟨[⟨[⟨"go fast quit"⟩], 0, true⟩]⟩ 0 =
      (.closed, ⟨0, -1⟩) ∧
    runLoop ⟨0, -1⟩ [(⟨[⟨[⟨"go fast quit"⟩], 0, true⟩]⟩, 0)] =
      ([.closed], ⟨0, -1⟩, true) ∧
    emittedMsgs [StepResult.closed] = [] :=
  quit_precedes_commands ⟨0, -1⟩ 0 ⟨"go fast quit"⟩ [] 0 true [] []
    (by decide) (by decide) ⟨"go fast", by decide, by decide⟩

/-- C2 (refuted by the code): a final "quit" closes the stream, yet the
supervising `while True:` loop of `main` opens a new microphone session on
its very next iteration — it opens exactly as many sessions as it iterates,
for any input whatsoever, so the supervising loop never terminates and new
sessions keep starting after the close request. -/
theorem main_restarts_after_quit :
    (runLoop initState [(⟨[⟨[⟨"quit"⟩], 0, true⟩]⟩, 0)]).2.2 = true ∧
    (mainLoop (fun _ => [[(⟨[⟨[⟨"quit"⟩], 0, true⟩]⟩, 0)]]) initState 0 2).1 = 2 ∧
    (∀ (env : ℕ → List (List (StreamingResponse × ℚ))) (ist : InterpState)
        (n fuel : ℕ), (mainLoop env ist n fuel).1 = fuel) := by
  refine ⟨by decide, by decide, fun env ist n fuel => mainLoop_count env fuel ist n⟩

/-- C7: the stream time budget is 55000 ms; when the elapsed time exceeds it
(checked before pulling a chunk) the generator ends at once with the start
timestamp reset to the current time; and across the session handoff the
buffered chunks are delivered in their original order, none twice and none
dropped: the chunks yielded by the two successive generator runs followed by
the remaining queue reconstruct the original queue exactly. -/
theorem session_handoff {α : Type} :
    STREAMING_LIMIT = 55000 ∧
    (∀ (t : ℤ) (k : ℕ) (sched : List (ℤ × ℕ)) (st : GenState α),
        st.closed = false → t - st.start_time > STREAMING_LIMIT →
        genRun ((t, k) :: sched) st = ([], { st with start_time := t })) ∧
    (∀ (sched1 sched2 : List (ℤ × ℕ)) (st : GenState α) (l : List α),
        st.buff = l.map some →
        ∃ rem, (genRun sched2 (genRun sched1 st).2).2.buff = rem.map some ∧
          (genRun sched1 st).1.flatten ++
            ((genRun sched2 (genRun sched1 st).2).1.flatten ++ rem) = l) := by
  refine ⟨rfl, ?_, ?_⟩
  · intro t k sched st hcl hlim
    simp only [genRun]
    rw [if_neg (by simp [hcl]), if_pos hlim]
  · intro sched1 sched2 st l h
    obtain ⟨rem1, hb1, hf1⟩ := genRun_map_some sched1 st l h
    obtain ⟨rem2, hb2, hf2⟩ := genRun_map_some sched2 _ rem1 hb1
    exact ⟨rem2, hb2, by rw [hf2, hf1]⟩

/-- C7 witness: a generator whose budget has expired resets its start time,
and a three-chunk queue is handed across two sessions in order. -/
theorem session_handoff_witness :
    genRun [((60001 : ℤ), (0 : ℕ))] (⟨false, 5000, []⟩ : GenState ℕ) =
      ([], ⟨false, 60001, []⟩) ∧
    (∃ rem, (genRun [((60002 : ℤ), 5)]
        (genRun [((0 : ℤ), (0 : ℕ)), ((60001 : ℤ), 0)]
          (⟨false, 0, [some 1, some 2, some 3]⟩ : GenState ℕ)).2).2.buff =
          rem.map some ∧
      (genRun [((0 : ℤ), (0 : ℕ)), ((60001 : ℤ), 0)]
          (⟨false, 0, [some 1, some 2, some 3]⟩ : GenState ℕ)).1.flatten ++
        ((genRun [((60002 : ℤ), 5)]
            (genRun [((0 : ℤ), (0 : ℕ)), ((60001 : ℤ), 0)]
              (⟨false, 0, [some 1, some 2, some 3]⟩ : GenState ℕ)).2).1.flatten ++
          rem) = [1, 2, 3]) :=
  ⟨session_handoff.2.1 60001 0 [] ⟨false, 5000, []⟩ rfl (by decide),
   session_handoff.2.2 [((0 : ℤ), (0 : ℕ)), ((60001 : ℤ), 0)] [((60002 : ℤ), 5)]
     ⟨false, 0, [some 1, some 2, some 3]⟩ [1, 2, 3] rfl⟩

end ChipVoice
